import Mathlib

/-!
Shallow embedding of the core of the `sbi` repository (simulation-based
inference): the atom-based contrastive loss construction shared by
`SNPE_C._log_prob_proposal_posterior` (src/sbi/inference/snpe/snpe_c.py) and
`RatioEstimator._classifier_logits` (src/sbi/inference/snre/snre_base.py),
the SNRE training loop configuration, the normalizing-flow builder dimension
bookkeeping and the transform/flow registries
(src/sbi/samplers/vi/vi_pyro_flows.py), and the potential function provider.

Tensors are embedded as lists of rational rows (`List (List ℚ)`); scalar
tensors as `ℚ`.  External collaborators (torch engine functions such as
`log_prob` of a network, `logsumexp`, the prior density) are abstracted as
function parameters.  Fallible code returns `Except String`.
-/

namespace SBI

/-! ### Generic list helpers (indexing into flattened uniform blocks) -/

/-! ### `clamp_and_warn` (sbi/utils; called from both loss paths)

Modelled from the spec: `clamp_and_warn(name, value, min_val, max_val)` is not
under `src/`; per the spec it clamps the requested value into the valid range
`[min_val, max_val]` with a warning and returns the clamped value. -/

/-- Modelled from the spec: clamp `value` into `[minVal, maxVal]` (the warning
is side-effect only and is not modelled). -/
def clamp_and_warn (value minVal maxVal : ℕ) : ℕ :=
  max minVal (min value maxVal)

/-! ### `build_flow` event-shape probe (src/sbi/samplers/vi/vi_pyro_flows.py)

The source probes the link transform on a zero vector of the nominal event
shape:

    additional_dim = len(link_flow(torch.zeros(event_shape))) - torch.tensor(event_shape)
    event_shape = torch.Size(torch.tensor(event_shape) - additional_dim)

A one-dimensional event shape is embedded as its dimension `n : ℕ`; the link
transform as a function on rational vectors. -/

/-- `additional_dim` of `build_flow`: probe output length minus nominal
dimension (an integer, since a link transform may reduce dimensionality). -/
def build_flow_additional_dim (n : ℕ) (link : List ℚ → List ℚ) : ℤ :=
  ((link (List.replicate n 0)).length : ℤ) - (n : ℤ)

/-- The working event dimension computed by `build_flow`: nominal dimension
minus `additional_dim`.  It is used for the base distribution and all inner
transforms. -/
def build_flow_working_dim (n : ℕ) (link : List ℚ → List ℚ) : ℤ :=
  (n : ℤ) - build_flow_additional_dim n link

/-! ### `RatioEstimator` construction and per-round training state
(src/sbi/inference/snre/snre_base.py)

Network weights are abstracted as a value of an arbitrary type `W`; a `deepcopy`
of a value is the value itself in a pure embedding (a deep copy is
indistinguishable from its source by value). -/

/-- Pure-value model of Python `copy.deepcopy`. -/
def deepcopy {W : Type} (w : W) : W := w

/-- The state relevant to `retrain_from_scratch_each_round`:
`self._posterior`'s network weights and the saved `self._untrained_classifier`. -/
structure RatioEstimatorState (W : Type) where
  posteriorNet : W
  untrainedClassifier : Option W

/-- `RatioEstimator.__init__` (lines 91-112): the posterior wraps the
classifier; if retraining from scratch is configured, a deep copy of the
original untrained classifier is saved, otherwise `None`. -/
def ratio_estimator_init {W : Type} (retrainFromScratchEachRound : Bool)
    (classifier : W) : RatioEstimatorState W :=
  { posteriorNet := classifier
    untrainedClassifier :=
      if retrainFromScratchEachRound then some (deepcopy classifier) else none }

/-- The reset step at the start of `RatioEstimator._train` (lines 279-282):

    if self._retrain_from_scratch_each_round:
        self._posterior = deepcopy(self._posterior)

Note that it deep-copies the *current* posterior. -/
def train_reset_step {W : Type} (retrainFromScratchEachRound : Bool)
    (s : RatioEstimatorState W) : RatioEstimatorState W :=
  if retrainFromScratchEachRound then
    { s with posteriorNet := deepcopy s.posteriorNet }
  else s

/-- The epoch loop of `_train` updates the posterior network weights in place;
the weight evolution is abstracted as a function `fit`. -/
def train_epochs {W : Type} (fit : W → W) (s : RatioEstimatorState W) :
    RatioEstimatorState W :=
  { s with posteriorNet := fit s.posteriorNet }

/-- One round's TRAIN phase: the reset step followed by the epoch loop. -/
def snre_round_train {W : Type} (retrainFromScratchEachRound : Bool)
    (fit : W → W) (s : RatioEstimatorState W) : RatioEstimatorState W :=
  train_epochs fit (train_reset_step retrainFromScratchEachRound s)

/-! ### `PotentialFunctionProvider` (src/sbi/inference/snre/snre_base.py)

`ensure_theta_batched` / `ensure_x_batched` are in `sbi/utils/torchutils.py`,
not under `src/`; modelled from the spec: both paths coerce the parameter and
observation to a batch of size 1.  The classifier and the prior log-density are
abstract functions on batches. -/

/-- Modelled from the spec: coerce a single parameter (or observation) vector
to a batch of size 1 (`ensure_theta_batched` and `ensure_x_batched`). -/
def ensure_batched (t : List ℚ) : List (List ℚ) := [t]

/-- `torch.cat((theta, x), dim=1)`: rowwise concatenation of two batches. -/
def cat_dim1 (a b : List (List ℚ)) : List (List ℚ) :=
  List.zipWith (fun r s => r ++ s) a b

/-- `.reshape(1, -1)`: flatten a batch into a single row. -/
def reshape_row1 (m : List (List ℚ)) : List (List ℚ) := [m.flatten]

/-- `PotentialFunctionProvider.np_potential` (lines 395-413):
`log_ratio + prior.log_prob(theta)` where the log-ratio is the classifier
applied to the concatenated, re-batched pair. -/
def np_potential (classifier : List (List ℚ) → ℚ) (priorLogProb : List (List ℚ) → ℚ)
    (x theta : List ℚ) : ℚ :=
  let thetaB := ensure_batched theta
  let xB := ensure_batched x
  let logRatio := classifier (reshape_row1 (cat_dim1 thetaB xB))
  logRatio + priorLogProb thetaB

/-- `PotentialFunctionProvider.pyro_potential` (lines 415-435):
`-(log_ratio + prior.log_prob(theta))`. -/
def pyro_potential (classifier : List (List ℚ) → ℚ) (priorLogProb : List (List ℚ) → ℚ)
    (x theta : List ℚ) : ℚ :=
  let thetaB := ensure_batched theta
  let xB := ensure_batched x
  let logRatio := classifier (reshape_row1 (cat_dim1 thetaB xB))
  let potential := -(logRatio + priorLogProb thetaB)
  potential

/-! ### Transform and flow-builder registries (src/sbi/samplers/vi/vi_pyro_flows.py)

A registry (`_TRANSFORMS` together with `_TRANSFORMS_INITS`, and
`_FLOW_BUILDERS`) is embedded as an association list from names to an abstract
entry type (the constructor paired with its default-argument initializer, and
the builder function, respectively are opaque to the lookup logic).
Python dict `in`, `[...]` access, and the raised `ValueError`/`KeyError` are
embedded with `List.lookup` and `Except String`. -/

/-- Python `str.lower()` (as used by `get_transform`), for the ASCII names the
registry uses: lowercase every character. -/
def pyLower (s : String) : String := ⟨s.data.map Char.toLower⟩

/-- `register_transform` (lines 38-53, inner `_register` with an explicit
`name`): registering a name already present raises `ValueError`; otherwise the
entry is stored under the name verbatim. -/
def register_transform {α : Type} (reg : List (String × α)) (name : String)
    (entry : α) : Except String (List (String × α)) :=
  if (reg.lookup name).isSome then
    Except.error ("The transform " ++ name ++ " is already registered")
  else
    Except.ok ((name, entry) :: reg)

/-- `register_flow_builder` (lines 99-113, inner `_register` with an explicit
`name`): same check against `_FLOW_BUILDERS`. -/
def register_flow_builder {α : Type} (reg : List (String × α)) (name : String)
    (entry : α) : Except String (List (String × α)) :=
  if (reg.lookup name).isSome then
    Except.error ("The flow " ++ name ++ " is not registered as default.")
  else
    Except.ok ((name, entry) :: reg)

/-- The registry lookup of `get_transform` (lines 81-86): the requested name is
lowercased first (`name = name.lower()`), then `_TRANSFORMS[name]` raises
`KeyError` when absent. -/
def get_transform {α : Type} (reg : List (String × α)) (name : String) :
    Except String α :=
  match reg.lookup (pyLower name) with
  | some entry => Except.ok entry
  | none => Except.error ("KeyError: " ++ pyLower name)

/-- The registry lookup of `get_flow_builder` (lines 126-139):
`_FLOW_BUILDERS[name]` with the name used verbatim; `KeyError` when absent. -/
def get_flow_builder {α : Type} (reg : List (String × α)) (name : String) :
    Except String α :=
  match reg.lookup name with
  | some entry => Except.ok entry
  | none => Except.error ("KeyError: " ++ name)

/-! ### `RatioEstimator._train` split, loaders and `num_atoms`
(src/sbi/inference/snre/snre_base.py, lines 236-271) -/

/-- `num_training_examples = int((1 - validation_fraction) * num_examples)`:
for the nonnegative values arising here Python `int()` truncation is the floor. -/
def num_training_examples (numExamples : ℕ) (validationFraction : ℚ) : ℕ :=
  Int.toNat ⌊(1 - validationFraction) * (numExamples : ℚ)⌋

/-- `num_validation_examples = num_examples - num_training_examples`. -/
def num_validation_examples (numExamples : ℕ) (validationFraction : ℚ) : ℕ :=
  numExamples - num_training_examples numExamples validationFraction

/-- `clipped_batch_size = min(batch_size, num_validation_examples)`. -/
def clipped_batch_size (batchSize numExamples : ℕ) (validationFraction : ℚ) : ℕ :=
  min batchSize (num_validation_examples numExamples validationFraction)

/-- The facets of a `torch.utils.data.DataLoader` construction that the claims
depend on: the minibatch size and the `drop_last` flag. -/
structure DataLoaderCfg where
  batchSize : ℕ
  dropLast : Bool

/-- The `train_loader` built by `_train` (lines 259-264):
`batch_size=clipped_batch_size, drop_last=True`. -/
def snre_train_loader_cfg (batchSize numExamples : ℕ) (validationFraction : ℚ) :
    DataLoaderCfg :=
  { batchSize := clipped_batch_size batchSize numExamples validationFraction
    dropLast := true }

/-- The `val_loader` built by `_train` (lines 265-271):
`batch_size=clipped_batch_size, drop_last=False`. -/
def snre_val_loader_cfg (batchSize numExamples : ℕ) (validationFraction : ℚ) :
    DataLoaderCfg :=
  { batchSize := clipped_batch_size batchSize numExamples validationFraction
    dropLast := false }

/-- Batching semantics of `torch.utils.data.DataLoader` over a fixed item
sequence: consecutive slices of `batchSize` items; with `drop_last` a final
partial slice is dropped. -/
def loader_batches {α : Type} (cfg : DataLoaderCfg) (items : List α) :
    List (List α) :=
  let numBatches :=
    if cfg.dropLast then items.length / cfg.batchSize
    else (items.length + cfg.batchSize - 1) / cfg.batchSize
  (List.range numBatches).map
    (fun i => (items.drop (i * cfg.batchSize)).take cfg.batchSize)

/-- The `num_atoms` value actually passed on to `self._loss` by
`RatioEstimator._train`: line 250 calls

    clamp_and_warn("num_atoms", num_atoms, min_val=2, max_val=clipped_batch_size)

but discards the returned value, and line 292 calls
`self._loss(theta_batch, x_batch, num_atoms)` with the original argument. -/
def snre_train_num_atoms_used (numAtoms batchSize numExamples : ℕ)
    (validationFraction : ℚ) : ℕ :=
  let clippedBatchSize := clipped_batch_size batchSize numExamples validationFraction
  let _ := clamp_and_warn numAtoms 2 clippedBatchSize
  numAtoms

/-- The `num_atoms` value used by `SNPE_C._log_prob_proposal_posterior`
(lines 124-126): the clamped value is bound and used. -/
def snpe_num_atoms_used (numAtoms batchSize : ℕ) : ℕ :=
  clamp_and_warn numAtoms 2 batchSize

/-! ### The atom sampler shared by `SNPE_C._log_prob_proposal_posterior`
(snpe_c.py lines 129-144) and `RatioEstimator._classifier_logits`
(snre_base.py lines 324-336)

    probs = ones(batch_size, batch_size) * (1 - eye(batch_size)) / (batch_size - 1)
    choices = torch.multinomial(probs, num_samples=num_atoms - 1, replacement=False)
    contrasting_theta = theta[choices]
    atomic_theta = torch.cat((theta[:, None, :], contrasting_theta), dim=1).reshape(
        batch_size * num_atoms, -1)

`torch.multinomial(w, n, replacement=False)` draws `n` category indices
sequentially, each proportional to the remaining (not yet drawn) nonzero
weights; it is an external collaborator and is embedded by its documented
distribution: `multinomialSupport` is the set of index sequences it can return
for one weight row, and `seqProb` the probability it assigns to a sequence. -/

/-- The `probs` weight matrix: uniform weight `1/(B-1)` off the diagonal, `0`
on the diagonal. -/
def atomProbs (B : ℕ) : List (List ℚ) :=
  (List.range B).map (fun i => (List.range B).map
    (fun j => (1 * (1 - if i = j then 1 else 0)) / ((B : ℚ) - 1)))

/-- Support of `torch.multinomial(w, numSamples, replacement=False)` for one
weight row `w`: sequences of `numSamples` pairwise-distinct indices, each with
nonzero weight. -/
def multinomialSupport (w : List ℚ) (numSamples : ℕ) (s : List ℕ) : Prop :=
  s.length = numSamples ∧ s.Nodup ∧ ∀ j ∈ s, j < w.length ∧ w.getD j 0 ≠ 0

instance (w : List ℚ) (n : ℕ) (s : List ℕ) :
    Decidable (multinomialSupport w n s) := by
  unfold multinomialSupport
  infer_instance

/-- Sequential probability of `torch.multinomial(w, _, replacement=False)`
returning exactly the index sequence `s`: each draw takes its weight over the
total remaining weight, and the drawn index's weight is then zeroed. -/
def seqProb (w : List ℚ) : List ℕ → ℚ
  | [] => 1
  | j :: rest => w.getD j 0 / w.sum * seqProb (w.set j 0) rest

/-- `invDesc m n = 1/(m * (m-1) * ... * (m-n+1))`: the uniform probability of
each injective `n`-sequence out of `m` equally-weighted categories. -/
def invDesc : ℕ → ℕ → ℚ
  | _, 0 => 1
  | m, n + 1 => 1 / (m : ℚ) * invDesc (m - 1) n

/-- Number of nonzero weights in a row. -/
def nnz (w : List ℚ) : ℕ := w.countP (fun v => decide (v ≠ 0))

/-- `atomic_theta`: block `i` is `theta[i]` followed by the contrast rows
`theta[choices[i][t]]`, blocks concatenated in row-major order (the
`cat`/`reshape` of the source). -/
def atomicTheta (theta : List (List ℚ)) (choices : List (List ℕ)) : List (List ℚ) :=
  ((List.range theta.length).map
    (fun i => theta.getD i [] ::
      (choices.getD i []).map (fun j => theta.getD j []))).flatten

/-- `utils.repeat_rows(x, num_atoms)`: each row duplicated `num_atoms` times
contiguously (`[1, 2] -> [1, 1, 2, 2]`). -/
def repeat_rows (x : List (List ℚ)) (numAtoms : ℕ) : List (List ℚ) :=
  (x.map (fun row => List.replicate numAtoms row)).flatten

/-! ### `SNPE_C._log_prob_proposal_posterior` (snpe_c.py lines 98-173)

The density estimator `self._posterior.net.log_prob`, the prior
`self._prior.log_prob` and `torch.logsumexp` are external collaborators,
abstracted as per-row function parameters.  `masks` has one scalar entry per
batch row (the source's `masks.reshape(-1)`).  `torch.reshape(B, K)` of a flat
length-`B*K` tensor is embedded as `reshape2`. -/

/-- `torch.reshape(B, K)` of a flat list, row-major. -/
def reshape2 (B K : ℕ) (l : List ℚ) : List (List ℚ) :=
  (List.range B).map (fun i => (List.range K).map (fun t => l.getD (i * K + t) 0))

/-- The unnormalized log-importance-weight row for batch item `i`, as the claim
describes it: the self pair at index 0 followed by the contrast pairs, each the
model log-density minus the prior log-density. -/
def atomRow (modelLogProb : List ℚ → List ℚ → ℚ) (priorLogProb : List ℚ → ℚ)
    (theta x : List (List ℚ)) (choices : List (List ℕ)) (i : ℕ) : List ℚ :=
  (modelLogProb (theta.getD i []) (x.getD i []) - priorLogProb (theta.getD i [])) ::
    (choices.getD i []).map
      (fun j => modelLogProb (theta.getD j []) (x.getD i []) -
        priorLogProb (theta.getD j []))

/-- `SNPE_C._log_prob_proposal_posterior`, value dataflow (finiteness
assertions dropped; they are modelled separately by
`snpe_log_prob_proposal_posterior_checked`):
clamp `num_atoms`, repeat `x`, build the atoms, evaluate the model on the
`B*K` atomic pairs and the prior on the atomic thetas, reshape both to
`(B, K)`, subtract, normalize each row by `unnormalized[:, 0] - logsumexp(row)`,
and — when `use_combined_loss` — add `masks * log_prob_posterior_non_atomic`. -/
def snpe_log_prob_proposal_posterior (modelLogProb : List ℚ → List ℚ → ℚ)
    (priorLogProb : List ℚ → ℚ) (logsumexp : List ℚ → ℚ) (useCombinedLoss : Bool)
    (numAtoms : ℕ) (theta x : List (List ℚ)) (masks : List ℚ)
    (choices : List (List ℕ)) : List ℚ :=
  let batchSize := theta.length
  let numAtomsC := clamp_and_warn numAtoms 2 batchSize
  let repeatedX := repeat_rows x numAtomsC
  let atomicTh := atomicTheta theta choices
  let logProbPosterior := List.zipWith modelLogProb atomicTh repeatedX
  let logProbPosteriorR := reshape2 batchSize numAtomsC logProbPosterior
  let logProbPrior := atomicTh.map priorLogProb
  let logProbPriorR := reshape2 batchSize numAtomsC logProbPrior
  let unnormalized :=
    List.zipWith (List.zipWith (fun a b => a - b)) logProbPosteriorR logProbPriorR
  let logProbProposalPosterior :=
    unnormalized.map (fun row => row.getD 0 0 - logsumexp row)
  if useCombinedLoss then
    List.zipWith (fun mv v => mv + v)
      (List.zipWith (fun m l => m * l) masks (List.zipWith modelLogProb theta x))
      logProbProposalPosterior
  else logProbProposalPosterior

/-- `self._assert_all_finite(tensor, label)` (sbi/inference, not under `src/`).
Modelled from the spec: non-finite tensor entries (embedded as `none`) raise a
fatal error carrying the label; otherwise the finite values pass through. -/
def assert_all_finite (t : List (Option ℚ)) (label : String) :
    Except String (List ℚ) :=
  if t.all Option.isSome then Except.ok t.reduceOption else Except.error label

/-- The normalized proposal-posterior rows, with a possibly non-finite
`torch.logsumexp` (an external float computation that may overflow): entry `i`
is `unnormalized[i, 0] - logsumexp(unnormalized[i])`. -/
def snpe_normalized_rows (logsumexp : List ℚ → Option ℚ) (B K : ℕ)
    (post prior : List ℚ) : List (Option ℚ) :=
  (List.zipWith (List.zipWith (fun a b => a - b))
      (reshape2 B K post) (reshape2 B K prior)).map
    (fun row => (logsumexp row).map (fun s => row.getD 0 0 - s))

/-- `SNPE_C._log_prob_proposal_posterior`, control flow of the three
finiteness assertions (lines 146-163): the model's atomic log-density, the
prior's log-density on the atoms, and the normalized proposal-posterior
log-probability are each checked; the first non-finite tensor raises.  The
combined-loss augmentation (lines 166-171) happens after the checks and its
non-atomic evaluation is not itself checked. -/
def snpe_log_prob_proposal_posterior_checked
    (modelLogProb : List ℚ → List ℚ → Option ℚ) (priorLogProb : List ℚ → Option ℚ)
    (logsumexp : List ℚ → Option ℚ) (useCombinedLoss : Bool) (numAtoms : ℕ)
    (theta x : List (List ℚ)) (masks : List ℚ) (choices : List (List ℕ)) :
    Except String (List (Option ℚ)) :=
  let batchSize := theta.length
  let numAtomsC := clamp_and_warn numAtoms 2 batchSize
  let repeatedX := repeat_rows x numAtomsC
  let atomicTh := atomicTheta theta choices
  match assert_all_finite (List.zipWith modelLogProb atomicTh repeatedX)
      "posterior eval" with
  | Except.error e => Except.error e
  | Except.ok logProbPosterior =>
    match assert_all_finite (atomicTh.map priorLogProb) "prior eval" with
    | Except.error e => Except.error e
    | Except.ok logProbPrior =>
      match assert_all_finite
          (snpe_normalized_rows logsumexp batchSize numAtomsC
            logProbPosterior logProbPrior)
          "proposal posterior eval" with
      | Except.error e => Except.error e
      | Except.ok logProbProposalPosterior =>
        if useCombinedLoss then
          Except.ok (List.zipWith
            (fun mna v => Option.map (fun na => mna.1 * na + v) mna.2)
            (masks.zip (List.zipWith modelLogProb theta x))
            logProbProposalPosterior)
        else
          Except.ok (logProbProposalPosterior.map some)

end SBI

namespace SBI

/-! ## Claim theorems -/

/-! ### Generic list helpers -/

/-- getD through a map, for an in-bounds index. -/
theorem getD_map {α β : Type} (f : α → β) (l : List α) (i : ℕ) (hi : i < l.length)
    (da : α) (db : β) : (l.map f).getD i db = f (l.getD i da) := by
  induction l generalizing i with
  | nil => exact absurd hi (by simp)
  | cons a l ih =>
    cases i with
    | zero => simp
    | succ i =>
      simp only [List.map_cons, List.getD_cons_succ]
      exact ih i (by simpa using hi)

/-- A list is the map of `getD` over the range of its length. -/
theorem range_map_getD {α : Type} (l : List α) (d : α) :
    (List.range l.length).map (fun t => l.getD t d) = l := by
  induction l with
  | nil => rfl
  | cons a l ih =>
    rw [List.length_cons, List.range_succ_eq_map, List.map_cons, List.map_map]
    simp only [List.getD_cons_zero, Function.comp_def, Nat.succ_eq_add_one,
      List.getD_cons_succ]
    exact congrArg (List.cons a) ih

/-- The flattening of blocks that all have length `K` has length `B * K`. -/
theorem flatten_length_uniform {α : Type} (bs : List (List α)) (K : ℕ)
    (h : ∀ b ∈ bs, b.length = K) : bs.flatten.length = bs.length * K := by
  induction bs with
  | nil => simp
  | cons b bs ih =>
    simp only [List.flatten_cons, List.length_append, List.length_cons]
    rw [h b (by simp), ih (fun c hc => h c (by simp [hc]))]
    ring

/-- Row-major indexing into a flattening of uniform blocks of length `K`. -/
theorem flatten_getD_uniform {α : Type} (bs : List (List α)) (K : ℕ)
    (h : ∀ b ∈ bs, b.length = K) (i t : ℕ) (hi : i < bs.length) (ht : t < K)
    (d : α) : bs.flatten.getD (i * K + t) d = (bs.getD i []).getD t d := by
  induction bs generalizing i with
  | nil => exact absurd hi (by simp)
  | cons b bs ih =>
    cases i with
    | zero =>
      simp only [List.flatten_cons, Nat.zero_mul, Nat.zero_add, List.getD_cons_zero]
      exact List.getD_append _ _ _ _ (by rw [h b (by simp)]; exact ht)
    | succ i =>
      have hbK : b.length = K := h b (by simp)
      have hidx : (i + 1) * K + t = b.length + (i * K + t) := by
        rw [hbK]; ring
      simp only [List.flatten_cons, List.getD_cons_succ, hidx]
      rw [List.getD_eq_getElem?_getD, List.getElem?_append_right (by omega),
        Nat.add_sub_cancel_left, ← List.getD_eq_getElem?_getD]
      exact ih (fun c hc => h c (by simp [hc])) i (by simpa using hi)

/-- getD through a zipWith, for an index in bounds of both lists. -/
theorem getD_zipWith {α β γ : Type} (f : α → β → γ) (as : List α) (bs : List β)
    (i : ℕ) (ha : i < as.length) (hb : i < bs.length) (da : α) (db : β) (dc : γ) :
    (List.zipWith f as bs).getD i dc = f (as.getD i da) (bs.getD i db) := by
  induction as generalizing bs i with
  | nil => exact absurd ha (by simp)
  | cons a as ih =>
    cases bs with
    | nil => exact absurd hb (by simp)
    | cons b bs =>
      cases i with
      | zero => simp
      | succ i =>
        simp only [List.zipWith_cons_cons, List.getD_cons_succ]
        exact ih bs i (by simpa using ha) (by simpa using hb)

theorem clamp_and_warn_of_le (value minVal maxVal : ℕ) (h1 : minVal ≤ value)
    (h2 : value ≤ maxVal) : clamp_and_warn value minVal maxVal = value := by
  unfold clamp_and_warn
  omega

/-- A lowercased character is never an uppercase ASCII letter. -/
theorem isUpper_toLower (c : Char) : (Char.toLower c).isUpper = false := by
  unfold Char.toLower Char.isUpper
  by_cases h : c.toNat ≥ 65 ∧ c.toNat ≤ 90
  · rw [if_pos h]
    have hval : (Char.ofNat (c.toNat + 32)).toNat = c.toNat + 32 := by
      have hv : (c.toNat + 32).isValidChar := Or.inl (by omega)
      unfold Char.ofNat
      rw [dif_pos hv]
      rfl
    apply Bool.and_eq_false_iff.mpr
    right
    simp only [decide_eq_false_iff_not]
    intro hle
    have h90 : (Char.ofNat (c.toNat + 32)).toNat ≤ (90 : UInt32).toNat := hle
    rw [hval] at h90
    have : (90 : UInt32).toNat = 90 := rfl
    omega
  · rw [if_neg h]
    apply Bool.and_eq_false_iff.mpr
    rcases Decidable.not_and_iff_or_not.mp h with h1 | h1
    · left
      simp only [decide_eq_false_iff_not]
      intro hge
      exact h1 (hge : (65 : UInt32).toNat ≤ c.toNat)
    · right
      simp only [decide_eq_false_iff_not]
      intro hle
      exact h1 (hle : c.toNat ≤ (90 : UInt32).toNat)

/-- No string lowercases to a string containing an uppercase ASCII letter. -/
theorem pyLower_ne_of_isUpper (name : String)
    (h : ∃ c ∈ name.data, c.isUpper = true) (req : String) :
    pyLower req ≠ name := by
  obtain ⟨c, hc, hup⟩ := h
  intro heq
  have hdata : req.data.map Char.toLower = name.data := congrArg String.data heq
  rw [← hdata] at hc
  obtain ⟨d, _, hd⟩ := List.mem_map.mp hc
  rw [← hd, isUpper_toLower] at hup
  exact Bool.false_ne_true hup

/-- Claim C6 (counterexample): the claim says lookup of a never-registered name
always raises.  On the code, after registering the transform name "foo", the
lookup `get_transform` with the never-registered name "FOO" succeeds, because
the requested name is lowercased before the lookup. -/
theorem get_transform_case_mismatch_counterexample :
    register_transform ([] : List (String × ℕ)) "foo" 0 = Except.ok [("foo", 0)] ∧
      get_transform [("foo", (0 : ℕ))] "FOO" = Except.ok 0 ∧
      ("FOO" : String) ≠ "foo" := by
  refine ⟨rfl, ?_, by decide⟩
  rfl

/-- Claim C6 (amended): registering an already-present name raises in both
registries (never a silent overwrite); `get_flow_builder` raises exactly on
names that are not registered keys; `get_transform` raises exactly on names
whose *lowercased* form is not a registered key (so a never-registered name
whose lowercase form is registered is looked up successfully). -/
theorem registries_error_behavior_amended (α : Type) :
    (∀ (reg : List (String × α)) (name : String) (entry : α),
      (reg.lookup name).isSome ↔
        ∃ msg, register_transform reg name entry = Except.error msg) ∧
      (∀ (reg : List (String × α)) (name : String) (entry : α),
        (reg.lookup name).isSome ↔
          ∃ msg, register_flow_builder reg name entry = Except.error msg) ∧
      (∀ (reg : List (String × α)) (name : String),
        reg.lookup name = none ↔
          ∃ msg, get_flow_builder reg name = Except.error msg) ∧
      (∀ (reg : List (String × α)) (name : String),
        reg.lookup (pyLower name) = none ↔
          ∃ msg, get_transform reg name = Except.error msg) := by
  refine ⟨fun reg name entry => ?_, fun reg name entry => ?_,
    fun reg name => ?_, fun reg name => ?_⟩
  · unfold register_transform
    by_cases h : (reg.lookup name).isSome <;> simp [h]
  · unfold register_flow_builder
    by_cases h : (reg.lookup name).isSome <;> simp [h]
  · unfold get_flow_builder
    cases h : reg.lookup name <;> simp
  · unfold get_transform
    cases h : reg.lookup (pyLower name) <;> simp

/-- Claim C9: `get_transform` lowercases the requested name before the lookup
while `register_transform` stores names verbatim; a lookup succeeds exactly
when the lowercased requested name is a registered key, and an entry registered
(successfully) under a name containing an uppercase ASCII letter can never be
retrieved by `get_transform` — every lookup raises a `KeyError`. -/
theorem get_transform_lowercase_lookup (α : Type) :
    (∀ (reg : List (String × α)) (name : String),
      (∃ entry, get_transform reg name = Except.ok entry) ↔
        (reg.lookup (pyLower name)).isSome) ∧
      (∀ (name : String) (entry : α),
        register_transform [] name entry = Except.ok [(name, entry)]) ∧
      (∀ (name : String), (∃ c ∈ name.data, c.isUpper = true) →
        ∀ (entry : α) (req : String),
          ∃ msg, get_transform [(name, entry)] req = Except.error msg) := by
  refine ⟨fun reg name => ?_, fun name entry => rfl, fun name hup entry req => ?_⟩
  · unfold get_transform
    cases h : reg.lookup (pyLower name) <;> simp
  · have hne : pyLower req ≠ name := pyLower_ne_of_isUpper name hup req
    unfold get_transform
    have hl : List.lookup (pyLower req) [(name, entry)] = none := by
      simp only [List.lookup_cons]
      rw [show ((pyLower req == name) = false) from beq_eq_false_iff_ne.mpr hne]
      rfl
    rw [hl]
    exact ⟨_, rfl⟩

/-- Witness for C9: the concrete registered name "Foo" contains an uppercase
letter, and the concrete lookup of "Foo" itself raises. -/
theorem get_transform_lowercase_lookup_witness :
    ∃ msg, get_transform [("Foo", (0 : ℕ))] "Foo" = Except.error msg :=
  (get_transform_lowercase_lookup ℕ).2.2 "Foo" ⟨'F', by decide, by decide⟩ 0 "Foo"

/-- Helper: the concrete train/validation split of 100 examples at validation
fraction 1/10 yields 90 training examples. -/
theorem num_training_examples_100 : num_training_examples 100 (1/10) = 90 := by
  unfold num_training_examples
  have h : ⌊(1 - (1 : ℚ)/10) * ((100 : ℕ) : ℚ)⌋ = 90 := by norm_num
  rw [h]
  rfl

/-- Helper: with batch size 50, 100 examples and validation fraction 1/10, the
clipped batch size is 10. -/
theorem clipped_batch_size_50_100 : clipped_batch_size 50 100 (1/10) = 10 := by
  unfold clipped_batch_size num_validation_examples
  rw [num_training_examples_100]
  decide

/-- Claim C5 (code evaluation at the failing input): in
`RatioEstimator._train` the clamped `num_atoms` is *not* the value used: with
requested `num_atoms = 40`, batch size 50, 100 examples and validation fraction
1/10 the clamp yields 10, but `_loss` receives 40.  (The SNPE-C path does use
the clamped value: requested 40 at batch size 20 is used as 20.) -/
theorem snre_num_atoms_clamp_discarded :
    snre_train_num_atoms_used 40 50 100 (1/10) = 40 ∧
      clamp_and_warn 40 2 (clipped_batch_size 50 100 (1/10)) = 10 ∧
      snpe_num_atoms_used 40 20 = 20 ∧ (40 : ℕ) ≠ 10 := by
  refine ⟨rfl, ?_, rfl, by decide⟩
  rw [clipped_batch_size_50_100]
  decide

/-- Flattening the first `nb` consecutive `b`-sized slices of a list gives its
first `nb * b` elements. -/
theorem flatten_slices {α : Type} (b : ℕ) (l : List α) (nb : ℕ) :
    ((List.range nb).map (fun i => (l.drop (i * b)).take b)).flatten =
      l.take (nb * b) := by
  induction nb with
  | zero => simp
  | succ n ih =>
    rw [List.range_succ, List.map_append, List.flatten_append]
    simp only [List.map_cons, List.map_nil, List.flatten_cons, List.flatten_nil,
      List.append_nil]
    rw [ih, Nat.succ_mul, List.take_add]

/-- Ceiling division bound: `nb * b ≥ n` for `nb = ⌈n / b⌉`. -/
theorem ceil_mul_ge (b n : ℕ) (hb : 0 < b) : n ≤ ((n + b - 1) / b) * b := by
  have h := Nat.div_add_mod (n + b - 1) b
  have hr : (n + b - 1) % b < b := Nat.mod_lt _ hb
  rw [Nat.mul_comm]
  generalize hp : b * ((n + b - 1) / b) = p at h
  generalize hm : (n + b - 1) % b = r at h hr
  omega

/-- With `drop_last`, every batch the loader yields is full-size. -/
theorem loader_batches_dropLast_full {α : Type} (b : ℕ) (hb : 0 < b)
    (items : List α) (batch : List α)
    (hbatch : batch ∈ loader_batches ⟨b, true⟩ items) : batch.length = b := by
  unfold loader_batches at hbatch
  simp only [List.mem_map, List.mem_range, if_true] at hbatch
  obtain ⟨i, hi, hbatcheq⟩ := hbatch
  have hle : (i + 1) * b ≤ items.length := (Nat.le_div_iff_mul_le hb).mp hi
  have hsum : i * b + b ≤ items.length := by
    calc i * b + b = (i + 1) * b := by ring
      _ ≤ items.length := hle
  rw [← hbatcheq]
  simp only [List.length_take, List.length_drop]
  omega

/-- Without `drop_last`, the loader covers every item. -/
theorem loader_batches_no_drop_covers {α : Type} (b : ℕ) (hb : 0 < b)
    (items : List α) : (loader_batches ⟨b, false⟩ items).flatten = items := by
  unfold loader_batches
  simp only [if_false]
  rw [flatten_slices]
  exact List.take_of_length_le (ceil_mul_ge b items.length hb)

/-- With `drop_last`, a final partial batch is dropped: if the batch size does
not divide the item count, strictly fewer items are yielded than exist. -/
theorem loader_batches_dropLast_drops {α : Type} (b : ℕ) (hb : 0 < b)
    (items : List α) (hmod : items.length % b ≠ 0) :
    (loader_batches ⟨b, true⟩ items).flatten.length < items.length := by
  unfold loader_batches
  simp only [if_true]
  rw [flatten_slices]
  simp only [List.length_take]
  have h := Nat.div_add_mod items.length b
  have hr : items.length % b < b := Nat.mod_lt _ hb
  rw [Nat.mul_comm]
  generalize hp : b * (items.length / b) = p at h
  generalize hm : items.length % b = r at h hr hmod
  omega

/-- Claim C10: both loaders of `RatioEstimator._train` use minibatch size
`min(batch_size, V)` where `V = num_examples - int((1 - validation_fraction) *
num_examples)` is the validation-set size; every minibatch the training loader
yields has exactly that (possibly capped) size, the validation loader covers
the whole validation index set, and when the clipped batch size does not divide
the training-set size the training loader drops the final partial minibatch. -/
theorem snre_loader_batch_size (batchSize numExamples : ℕ)
    (validationFraction : ℚ) (idxTrain idxVal : List ℕ)
    (hb : 0 < clipped_batch_size batchSize numExamples validationFraction) :
    (snre_train_loader_cfg batchSize numExamples validationFraction).batchSize
        = min batchSize
            (numExamples - Int.toNat ⌊(1 - validationFraction) * (numExamples : ℚ)⌋) ∧
      (snre_val_loader_cfg batchSize numExamples validationFraction).batchSize
        = min batchSize
            (numExamples - Int.toNat ⌊(1 - validationFraction) * (numExamples : ℚ)⌋) ∧
      (∀ batch ∈ loader_batches
          (snre_train_loader_cfg batchSize numExamples validationFraction) idxTrain,
        batch.length = clipped_batch_size batchSize numExamples validationFraction) ∧
      (loader_batches (snre_val_loader_cfg batchSize numExamples validationFraction)
          idxVal).flatten = idxVal ∧
      (idxTrain.length % clipped_batch_size batchSize numExamples validationFraction ≠ 0 →
        (loader_batches (snre_train_loader_cfg batchSize numExamples validationFraction)
            idxTrain).flatten.length < idxTrain.length) := by
  refine ⟨rfl, rfl,
    fun batch hbatch => loader_batches_dropLast_full _ hb idxTrain batch hbatch,
    loader_batches_no_drop_covers _ hb idxVal,
    fun hmod => loader_batches_dropLast_drops _ hb idxTrain hmod⟩

/-- `getD` into `List.range`. -/
theorem range_getD (n i : ℕ) (hi : i < n) (d : ℕ) :
    (List.range n).getD i d = i := by
  rw [List.getD_eq_getElem?_getD, List.getElem?_range hi]
  rfl

/-- In `range B` there are `B - 1` indices different from a fixed `i < B`. -/
theorem countP_range_ne (B i : ℕ) (hi : i < B) :
    (List.range B).countP (fun j => decide (¬ j = i)) = B - 1 := by
  induction B with
  | zero => omega
  | succ B ih =>
    rw [List.range_succ, List.countP_append]
    by_cases h : i < B
    · rw [ih h]
      have hB1 : List.countP (fun j => decide (¬ j = i)) [B] = 1 := by
        have hne : ¬ B = i := by omega
        simp [List.countP_cons, hne]
      rw [hB1]
      omega
    · have hiB : i = B := by omega
      subst hiB
      have h0 : (List.range i).countP (fun j => decide (¬ j = i)) = i := by
        rw [List.countP_eq_length.mpr, List.length_range]
        intro j hj
        simp only [List.mem_range] at hj
        simp
        omega
      have h1 : List.countP (fun j => decide (¬ j = i)) [i] = 0 := by
        simp [List.countP_cons]
      rw [h0, h1]
      omega

/-- Nonzero count of a cons cell. -/
theorem nnz_cons (a : ℚ) (w : List ℚ) :
    nnz (a :: w) = nnz w + (if a = 0 then 0 else 1) := by
  unfold nnz
  rw [List.countP_cons]
  by_cases h : a = 0 <;> simp [h]

/-- The total weight of a 0-or-`c` valued row is its nonzero count times `c`. -/
theorem sum_of_zeroOr (c : ℚ) (w : List ℚ) (h : ∀ v ∈ w, v = 0 ∨ v = c) :
    w.sum = (nnz w : ℚ) * c := by
  induction w with
  | nil => simp [nnz]
  | cons a w ih =>
    have ihw := ih (fun v hv => h v (by simp [hv]))
    rw [List.sum_cons, nnz_cons]
    by_cases ha0 : a = 0
    · rw [if_pos ha0, ha0]
      push_cast
      rw [ihw]
      ring
    · have hac : a = c := (h a (by simp)).resolve_left ha0
      rw [if_neg ha0, hac]
      push_cast
      rw [ihw]
      ring

/-- An in-bounds `getD` is a member. -/
theorem getD_mem {α : Type} (w : List α) (j : ℕ) (hj : j < w.length) (d : α) :
    w.getD j d ∈ w := by
  rw [List.getD_eq_getElem?_getD, List.getElem?_eq_getElem hj]
  exact List.getElem_mem hj

/-- A nonzero entry witnesses a positive nonzero count. -/
theorem nnz_pos (w : List ℚ) (j : ℕ) (hj : j < w.length)
    (hnz : w.getD j 0 ≠ 0) : 1 ≤ nnz w := by
  apply List.countP_pos_iff.mpr
  exact ⟨w.getD j 0, getD_mem w j hj 0, by simpa using hnz⟩

/-- Zeroing a nonzero entry decrements the nonzero count. -/
theorem nnz_set_zero (w : List ℚ) (j : ℕ) (hj : j < w.length)
    (hnz : w.getD j 0 ≠ 0) : nnz (w.set j 0) = nnz w - 1 := by
  induction w generalizing j with
  | nil => simp at hj
  | cons a w ih =>
    cases j with
    | zero =>
      have ha : a ≠ 0 := by simpa using hnz
      rw [List.set_cons_zero, nnz_cons, nnz_cons, if_pos rfl, if_neg ha]
      omega
    | succ j =>
      have hj' : j < w.length := by simpa using hj
      have hnz' : w.getD j 0 ≠ 0 := by simpa using hnz
      have hpos : 1 ≤ nnz w := nnz_pos w j hj' hnz'
      rw [List.set_cons_succ, nnz_cons, nnz_cons, ih j hj' hnz']
      by_cases h : a = 0
      · rw [if_pos h]
        omega
      · rw [if_neg h]
        omega

/-- Zeroing an entry preserves 0-or-`c` valuedness. -/
theorem zeroOr_set_zero (c : ℚ) (w : List ℚ) (j : ℕ)
    (h : ∀ v ∈ w, v = 0 ∨ v = c) : ∀ v ∈ w.set j 0, v = 0 ∨ v = c := by
  intro v hv
  rcases List.mem_or_eq_of_mem_set hv with hv' | hv'
  · exact h v hv'
  · exact Or.inl hv'

/-- Zeroing entry `j` leaves other entries unchanged. -/
theorem getD_set_ne (w : List ℚ) (j j' : ℕ) (hne : j' ≠ j) (d : ℚ) :
    (w.set j 0).getD j' d = w.getD j' d := by
  rw [List.getD_eq_getElem?_getD, List.getD_eq_getElem?_getD,
    List.getElem?_set_ne (by omega)]

/-- On a row whose nonzero weights are all equal, the sequential
without-replacement sampling probability of every admissible sequence depends
only on its length: the sampling is uniform over the support. -/
theorem seqProb_uniform (c : ℚ) (hc : c ≠ 0) (s : List ℕ) :
    ∀ (w : List ℚ), (∀ v ∈ w, v = 0 ∨ v = c) → s.Nodup →
      (∀ j ∈ s, j < w.length ∧ w.getD j 0 ≠ 0) →
      seqProb w s = invDesc (nnz w) s.length := by
  induction s with
  | nil => intro w _ _ _; rfl
  | cons j s ih =>
    intro w hw hnd hmem
    obtain ⟨hjlen, hjnz⟩ := hmem j (by simp)
    have hjc : w.getD j 0 = c := (hw _ (getD_mem w j hjlen 0)).resolve_left hjnz
    have hsum : w.sum = (nnz w : ℚ) * c := sum_of_zeroOr c w hw
    have hpos : 1 ≤ nnz w := nnz_pos w j hjlen hjnz
    have hset : nnz (w.set j 0) = nnz w - 1 := nnz_set_zero w j hjlen hjnz
    have hrest : seqProb (w.set j 0) s = invDesc (nnz w - 1) s.length := by
      rw [← hset]
      apply ih (w.set j 0) (zeroOr_set_zero c w j hw) (List.Nodup.of_cons hnd)
      intro j' hj'
      obtain ⟨h1, h2⟩ := hmem j' (by simp [hj'])
      have hne : j' ≠ j := by
        intro hEq
        subst hEq
        exact (List.nodup_cons.mp hnd).1 hj'
      refine ⟨by simpa using h1, ?_⟩
      rw [getD_set_ne w j j' hne]
      exact h2
    show w.getD j 0 / w.sum * seqProb (w.set j 0) s = invDesc (nnz w) (s.length + 1)
    rw [hjc, hsum, hrest]
    rw [show invDesc (nnz w) (s.length + 1) =
      1 / (nnz w : ℚ) * invDesc (nnz w - 1) s.length from rfl]
    congr 1
    have hn0 : ((nnz w : ℚ)) ≠ 0 := Nat.cast_ne_zero.mpr (by omega)
    rw [mul_comm, div_mul_eq_div_div, div_self hc]

/-- Row `i` of the `probs` matrix has length `B`. -/
theorem atomProbs_row_length (B i : ℕ) (hi : i < B) :
    ((atomProbs B).getD i []).length = B := by
  unfold atomProbs
  rw [getD_map _ (List.range B) i (by simpa using hi) 0 []]
  rw [List.length_map, List.length_range]

/-- Entry `(i, j)` of the `probs` matrix, as written in the source. -/
theorem atomProbs_entry (B i j : ℕ) (hi : i < B) (hj : j < B) :
    ((atomProbs B).getD i []).getD j 0 =
      (1 * ((1 : ℚ) - if i = j then 1 else 0)) / ((B : ℚ) - 1) := by
  unfold atomProbs
  rw [getD_map _ (List.range B) i (by simpa using hi) 0 [],
    range_getD B i hi 0,
    getD_map _ (List.range B) j (by simpa using hj) 0 0,
    range_getD B j hj 0]

/-- Entry `(i, j)` of the `probs` matrix: zero on the diagonal, `1/(B-1)` off
the diagonal. -/
theorem atomProbs_entry_eq (B i j : ℕ) (hi : i < B) (hj : j < B) :
    ((atomProbs B).getD i []).getD j 0 =
      if j = i then 0 else 1 / ((B : ℚ) - 1) := by
  rw [atomProbs_entry B i j hi hj]
  by_cases h : i = j
  · subst h
    simp
  · rw [if_neg h, if_neg (fun hji => h hji.symm)]
    norm_num

/-- The off-diagonal weight is nonzero for `B ≥ 2`. -/
theorem atomProbs_c_ne (B : ℕ) (hB : 2 ≤ B) : (1 : ℚ) / ((B : ℚ) - 1) ≠ 0 := by
  have h1 : (1 : ℚ) < (B : ℚ) := by
    have : 1 < B := by omega
    exact_mod_cast this
  exact one_div_ne_zero (sub_ne_zero.mpr (ne_of_gt h1))

/-- Every entry of a `probs` row is zero or the off-diagonal weight. -/
theorem atomProbs_row_zeroOr (B i : ℕ) (hi : i < B) :
    ∀ v ∈ (atomProbs B).getD i [], v = 0 ∨ v = 1 / ((B : ℚ) - 1) := by
  unfold atomProbs
  rw [getD_map _ (List.range B) i (by simpa using hi) 0 [], range_getD B i hi 0]
  intro v hv
  obtain ⟨j, _, rfl⟩ := List.mem_map.mp hv
  by_cases h : i = j
  · left
    simp [h]
  · right
    rw [if_neg h]
    norm_num

/-- A `probs` row has exactly `B - 1` nonzero weights. -/
theorem atomProbs_row_nnz (B i : ℕ) (hB : 2 ≤ B) (hi : i < B) :
    nnz ((atomProbs B).getD i []) = B - 1 := by
  unfold atomProbs nnz
  rw [getD_map _ (List.range B) i (by simpa using hi) 0 [], range_getD B i hi 0]
  rw [List.countP_map, ← countP_range_ne B i hi]
  apply List.countP_congr
  intro j hj
  simp only [Function.comp_apply, decide_eq_true_eq]
  by_cases h : i = j
  · subst h
    simp
  · have hBne : ((B : ℚ) - 1) ≠ 0 := by
      have h1 : (1 : ℚ) < (B : ℚ) := by
        have h2 : 1 < B := by
          have := List.mem_range.mp hj
          omega
        exact_mod_cast h2
      exact sub_ne_zero.mpr (ne_of_gt h1)
    have hne : (1 * ((1 : ℚ) - if i = j then 1 else 0)) / ((B : ℚ) - 1) ≠ 0 := by
      rw [if_neg h]
      simp [hBne]
    exact iff_of_true hne (fun hji => h hji.symm)

/-- The support of `torch.multinomial` on a `probs` row: sequences of distinct
indices in range that avoid the row's own index. -/
theorem multinomialSupport_atomProbs (B i n : ℕ) (hB : 2 ≤ B) (hi : i < B)
    (s : List ℕ) :
    multinomialSupport ((atomProbs B).getD i []) n s ↔
      s.length = n ∧ s.Nodup ∧ ∀ j ∈ s, j < B ∧ j ≠ i := by
  unfold multinomialSupport
  rw [atomProbs_row_length B i hi]
  constructor
  · rintro ⟨h1, h2, h3⟩
    refine ⟨h1, h2, fun j hj => ?_⟩
    obtain ⟨hjB, hjnz⟩ := h3 j hj
    refine ⟨hjB, fun hji => hjnz ?_⟩
    rw [hji, atomProbs_entry_eq B i i hi hi, if_pos rfl]
  · rintro ⟨h1, h2, h3⟩
    refine ⟨h1, h2, fun j hj => ?_⟩
    obtain ⟨hjB, hjne⟩ := h3 j hj
    refine ⟨hjB, ?_⟩
    rw [atomProbs_entry_eq B i j hi hjB, if_neg hjne]
    exact atomProbs_c_ne B hB

/-- On a `probs` row, `torch.multinomial` without replacement is uniform over
its support: every admissible sequence has probability
`1/((B-1)(B-2)...(B-len))`. -/
theorem seqProb_atomProbs (B i n : ℕ) (hB : 2 ≤ B) (hi : i < B) (s : List ℕ)
    (hs : multinomialSupport ((atomProbs B).getD i []) n s) :
    seqProb ((atomProbs B).getD i []) s = invDesc (B - 1) s.length := by
  obtain ⟨h1, h2, h3⟩ := hs
  rw [← atomProbs_row_nnz B i hB hi]
  exact seqProb_uniform (1 / ((B : ℚ) - 1)) (atomProbs_c_ne B hB) s _
    (atomProbs_row_zeroOr B i hi) h2 h3

/-- Claim C1: for a parameter batch of shape (B, d) with `B ≥ 2` and an atom
count `2 ≤ K ≤ B`, the atom construction shared by
`SNPE_C._log_prob_proposal_posterior` and `RatioEstimator._classifier_logits`
produces `atomic_theta` of shape (B·K, d) whose block `i` begins with
`theta[i]` and continues with the rows `theta[choices[i][t]]`, where the
contrast indices of each row are pairwise distinct, all different from `i`,
and drawn uniformly without replacement from `{0,...,B-1} \ {i}` (every
admissible contrast sequence has the same probability, and the admissible
sequences are exactly the injective ones avoiding `i`). -/
theorem atom_sampler_spec (B K d : ℕ) (theta : List (List ℚ))
    (choices : List (List ℕ)) (hB : 2 ≤ B) (hK2 : 2 ≤ K) (hKB : K ≤ B)
    (htheta : theta.length = B) (hd : ∀ row ∈ theta, row.length = d)
    (hsupp : ∀ i < B,
      multinomialSupport ((atomProbs B).getD i []) (K - 1) (choices.getD i [])) :
    (atomicTheta theta choices).length = B * K ∧
      (∀ row ∈ atomicTheta theta choices, row.length = d) ∧
      (∀ i < B, (atomicTheta theta choices).getD (i * K) [] = theta.getD i []) ∧
      (∀ i < B, ∀ t < K - 1,
        (atomicTheta theta choices).getD (i * K + (t + 1)) [] =
          theta.getD ((choices.getD i []).getD t 0) []) ∧
      (∀ i < B, (choices.getD i []).length = K - 1 ∧ (choices.getD i []).Nodup ∧
        ∀ j ∈ choices.getD i [], j < B ∧ j ≠ i) ∧
      (∀ i < B, ∀ s, multinomialSupport ((atomProbs B).getD i []) (K - 1) s →
        seqProb ((atomProbs B).getD i []) s = invDesc (B - 1) (K - 1)) := by
  have hprops : ∀ i, i < B → (choices.getD i []).length = K - 1 ∧
      (choices.getD i []).Nodup ∧ ∀ j ∈ choices.getD i [], j < B ∧ j ≠ i :=
    fun i hi => (multinomialSupport_atomProbs B i (K - 1) hB hi _).mp (hsupp i hi)
  have hblock : ∀ b ∈ (List.range theta.length).map
      (fun i => theta.getD i [] :: (choices.getD i []).map (fun j => theta.getD j [])),
      b.length = K := by
    intro b hb
    obtain ⟨i, hi, rfl⟩ := List.mem_map.mp hb
    have hiB : i < B := htheta ▸ List.mem_range.mp hi
    simp only [List.length_cons, List.length_map]
    rw [(hprops i hiB).1]
    omega
  have hblocklen : ((List.range theta.length).map
      (fun i => theta.getD i [] :: (choices.getD i []).map (fun j => theta.getD j []))).length
      = B := by
    rw [List.length_map, List.length_range, htheta]
  have hgetblock : ∀ i, i < B → ((List.range theta.length).map
      (fun i => theta.getD i [] :: (choices.getD i []).map (fun j => theta.getD j []))).getD i []
      = theta.getD i [] :: (choices.getD i []).map (fun j => theta.getD j []) := by
    intro i hi
    rw [getD_map _ (List.range theta.length) i
      (by rw [List.length_range, htheta]; exact hi) 0 []]
    rw [range_getD theta.length i (by rw [htheta]; exact hi) 0]
  refine ⟨?_, ?_, ?_, ?_, fun i hi => hprops i hi, ?_⟩
  · unfold atomicTheta
    rw [flatten_length_uniform _ K hblock, hblocklen]
  · intro row hrow
    unfold atomicTheta at hrow
    obtain ⟨b, hb, hrowb⟩ := List.mem_flatten.mp hrow
    obtain ⟨i, hi, rfl⟩ := List.mem_map.mp hb
    have hiB : i < B := htheta ▸ List.mem_range.mp hi
    rcases List.mem_cons.mp hrowb with hrfl | hmem
    · subst hrfl
      exact hd _ (getD_mem theta i (by rw [htheta]; exact hiB) [])
    · obtain ⟨j, hjmem, rfl⟩ := List.mem_map.mp hmem
      have hjB : j < B := ((hprops i hiB).2.2 j hjmem).1
      exact hd _ (getD_mem theta j (by rw [htheta]; exact hjB) [])
  · intro i hi
    unfold atomicTheta
    have h := flatten_getD_uniform _ K hblock i 0
      (by rw [hblocklen]; exact hi) (by omega) []
    rw [Nat.add_zero] at h
    rw [h, hgetblock i hi]
    rfl
  · intro i hi t ht
    unfold atomicTheta
    rw [flatten_getD_uniform _ K hblock i (t + 1)
      (by rw [hblocklen]; exact hi) (by omega) []]
    rw [hgetblock i hi]
    simp only [List.getD_cons_succ]
    exact getD_map _ (choices.getD i []) t (by rw [(hprops i hi).1]; exact ht) 0 []
  · intro i hi s hs
    have h := seqProb_atomProbs B i (K - 1) hB hi s hs
    rw [h, hs.1]

/-- Witness helper for C1: the concrete choice lists `[[1], [0]]` are in the
multinomial support of the `probs` rows at `B = 2`, `K = 2`. -/
theorem atom_sampler_witness_support :
    ∀ i < 2, multinomialSupport ((atomProbs 2).getD i []) (2 - 1)
      (([[1], [0]] : List (List ℕ)).getD i []) := by
  intro i hi
  have hc := atomProbs_c_ne 2 (by omega)
  interval_cases i
  · refine ⟨rfl, by simp, fun j hj => ?_⟩
    have hj1 : j = 1 := by simpa using hj
    subst hj1
    refine ⟨by rw [atomProbs_row_length 2 0 (by omega)]; omega, ?_⟩
    rw [atomProbs_entry_eq 2 0 1 (by omega) (by omega), if_neg (by omega)]
    exact hc
  · refine ⟨rfl, by simp, fun j hj => ?_⟩
    have hj0 : j = 0 := by simpa using hj
    subst hj0
    refine ⟨by rw [atomProbs_row_length 2 1 (by omega)]; omega, ?_⟩
    rw [atomProbs_entry_eq 2 1 0 (by omega) (by omega), if_neg (by omega)]
    exact hc

/-- Witness for C1: the atom construction at the concrete batch
`theta = [[5], [7]]`, `B = K = 2`, `choices = [[1], [0]]`. -/
theorem atom_sampler_spec_witness :
    (2 : ℕ) ≤ 2 ∧
      (atomicTheta [[5], [7]] [[1], [0]]).length = 2 * 2 ∧
      (∀ i < 2, (atomicTheta [[5], [7]] [[1], [0]]).getD (i * 2) [] =
        ([[5], [7]] : List (List ℚ)).getD i []) :=
  ⟨le_refl 2,
    (atom_sampler_spec 2 2 1 [[5], [7]] [[1], [0]] (by decide) (by decide)
      (by decide) (by decide) (by decide) atom_sampler_witness_support).1,
    (atom_sampler_spec 2 2 1 [[5], [7]] [[1], [0]] (by decide) (by decide)
      (by decide) (by decide) (by decide) atom_sampler_witness_support).2.2.1⟩

/-- Witness for C10: at batch size 50, 100 examples, validation fraction 1/10
(clipped batch size 10) and a validation index list of length 10, the
hypothesis holds and the validation loader covers the whole index list. -/
theorem snre_loader_batch_size_witness :
    0 < clipped_batch_size 50 100 (1/10) ∧
      (loader_batches (snre_val_loader_cfg 50 100 (1/10))
        (List.range 10)).flatten = List.range 10 :=
  ⟨by rw [clipped_batch_size_50_100]; decide,
    (snre_loader_batch_size 50 100 (1/10) (List.range 25) (List.range 10)
      (by rw [clipped_batch_size_50_100]; decide)).2.2.2.1⟩

/-- Claim C4 (counterexample): the claim states that a link transform reducing
dimensionality by 1 at nominal shape (5,) yields working dimension 4.  On the
code, probing a link transform that drops the last coordinate (output length 4
on a zero vector of length 5) yields working dimension 5 - (4 - 5) = 6, not 4. -/
theorem build_flow_working_dim_counterexample :
    ((fun l : List ℚ => l.dropLast) (List.replicate 5 (0 : ℚ))).length = 4 ∧
      build_flow_working_dim 5 (fun l : List ℚ => l.dropLast) = 6 ∧ (6 : ℤ) ≠ 4 := by
  refine ⟨by decide, ?_, by decide⟩
  unfold build_flow_working_dim build_flow_additional_dim
  decide

/-- Claim C4 (amended): `build_flow` uses the working dimension
`n - (probe output length - n)`, i.e. `2n - probe output length`: a link
transform that *increases* dimensionality by `m` yields working dimension
`n - m` (nominal (5,) with an increase of 1 yields 4), while one that *reduces*
dimensionality by `m` yields `n + m` (nominal (5,) with a reduction of 1
yields 6). -/
theorem build_flow_working_dim_amended :
    (∀ (n : ℕ) (link : List ℚ → List ℚ),
      build_flow_working_dim n link =
        2 * (n : ℤ) - ((link (List.replicate n 0)).length : ℤ)) ∧
      build_flow_working_dim 5 (fun l : List ℚ => l ++ [0]) = 4 ∧
      build_flow_working_dim 5 (fun l : List ℚ => l.dropLast) = 6 := by
  refine ⟨fun n link => ?_, ?_, ?_⟩
  · unfold build_flow_working_dim build_flow_additional_dim
    ring
  · unfold build_flow_working_dim build_flow_additional_dim
    decide
  · unfold build_flow_working_dim build_flow_additional_dim
    decide

/-- Claim C3 (code evaluation at the failing input): with
`retrain_from_scratch_each_round` configured, after a first round whose
training changes the weights (here `0 ↦ 1`), the model at the start of the
second round's TRAIN phase — i.e. after the reset step — still carries the
trained weights `1`, not the untrained initialization `0` saved at
construction time: `_train` executes `self._posterior = deepcopy(self._posterior)`
and never reads `self._untrained_classifier`. -/
theorem retrain_from_scratch_keeps_trained_weights :
    (train_reset_step true
        (snre_round_train true (fun w => w + 1) (ratio_estimator_init true 0))).posteriorNet
        = 1 ∧
      (ratio_estimator_init true (0 : ℕ)).untrainedClassifier = some 0 ∧
      (1 : ℕ) ≠ 0 := by
  refine ⟨rfl, rfl, by decide⟩

/-- Claim C7: for every prior log-density, classifier, observation and
parameter, `np_potential` equals the classifier log-ratio on the single-row
batched pair plus the prior log-density, and `pyro_potential` is its exact
negation; both paths evaluate the classifier on the single-row batch
`[theta ++ x]`. -/
theorem potential_provider_sign_relation
    (classifier : List (List ℚ) → ℚ) (priorLogProb : List (List ℚ) → ℚ)
    (x theta : List ℚ) :
    np_potential classifier priorLogProb x theta =
        classifier [theta ++ x] + priorLogProb [theta] ∧
      pyro_potential classifier priorLogProb x theta =
        -(classifier [theta ++ x] + priorLogProb [theta]) ∧
      pyro_potential classifier priorLogProb x theta =
        -np_potential classifier priorLogProb x theta := by
  unfold np_potential pyro_potential reshape_row1 cat_dim1 ensure_batched
  simp

/-! ### Supporting lemmas for the SNPE loss formula -/

/-- zipWith of a function over a list with itself is a map. -/
theorem zipWith_self {α β : Type} (f : α → α → β) (l : List α) :
    List.zipWith f l l = l.map (fun a => f a a) := by
  induction l with
  | nil => rfl
  | cons a l ih => simp [ih]

/-- Mapping a function over `getD` along the range of the length is mapping it
over the list. -/
theorem map_getD_range {α β : Type} (l : List α) (g : α → β) (d : α) :
    (List.range l.length).map (fun t => g (l.getD t d)) = l.map g := by
  conv_rhs => rw [← range_map_getD l d]
  rw [List.map_map]
  rfl

/-- `repeat_rows` length. -/
theorem repeat_rows_length (x : List (List ℚ)) (K : ℕ) :
    (repeat_rows x K).length = x.length * K := by
  unfold repeat_rows
  rw [flatten_length_uniform _ K ?_, List.length_map]
  intro b hb
  obtain ⟨r, _, rfl⟩ := List.mem_map.mp hb
  exact List.length_replicate K r

/-- `repeat_rows` block indexing: entry `i*K + t` is row `i`. -/
theorem repeat_rows_getD (x : List (List ℚ)) (K i t : ℕ) (hi : i < x.length)
    (ht : t < K) : (repeat_rows x K).getD (i * K + t) [] = x.getD i [] := by
  unfold repeat_rows
  rw [flatten_getD_uniform _ K ?_ i t (by rw [List.length_map]; exact hi) ht []]
  · rw [getD_map _ x i hi [] []]
    rw [List.getD_eq_getElem?_getD, List.getElem?_replicate]
    simp [ht]
  · intro b hb
    obtain ⟨r, _, rfl⟩ := List.mem_map.mp hb
    exact List.length_replicate K r

/-- The block lengths of `atomicTheta` are all `K` when every choice row has
`K - 1` entries. -/
theorem atomicTheta_block_lengths (K : ℕ) (hK : 1 ≤ K) (theta : List (List ℚ))
    (choices : List (List ℕ))
    (hrows : ∀ i < theta.length, (choices.getD i []).length = K - 1) :
    ∀ b ∈ (List.range theta.length).map
      (fun i => theta.getD i [] :: (choices.getD i []).map (fun j => theta.getD j [])),
      b.length = K := by
  intro b hb
  obtain ⟨i, hi, rfl⟩ := List.mem_map.mp hb
  simp only [List.length_cons, List.length_map]
  rw [hrows i (List.mem_range.mp hi)]
  omega

/-- `atomicTheta` has `B * K` rows. -/
theorem atomicTheta_length (K : ℕ) (hK : 1 ≤ K) (theta : List (List ℚ))
    (choices : List (List ℕ))
    (hrows : ∀ i < theta.length, (choices.getD i []).length = K - 1) :
    (atomicTheta theta choices).length = theta.length * K := by
  unfold atomicTheta
  rw [flatten_length_uniform _ K (atomicTheta_block_lengths K hK theta choices hrows),
    List.length_map, List.length_range]

/-- Block `i` of `atomicTheta`, as a list. -/
theorem atomicTheta_getD_block (theta : List (List ℚ)) (choices : List (List ℕ))
    (i : ℕ) (hi : i < theta.length) :
    ((List.range theta.length).map
      (fun i => theta.getD i [] :: (choices.getD i []).map (fun j => theta.getD j []))).getD i []
      = theta.getD i [] :: (choices.getD i []).map (fun j => theta.getD j []) := by
  rw [getD_map _ (List.range theta.length) i (by simpa using hi) 0 []]
  rw [range_getD theta.length i hi 0]

/-- Row `i*K` of `atomicTheta` is the self row `theta[i]`. -/
theorem atomicTheta_getD_self (K : ℕ) (hK : 1 ≤ K) (theta : List (List ℚ))
    (choices : List (List ℕ))
    (hrows : ∀ i < theta.length, (choices.getD i []).length = K - 1)
    (i : ℕ) (hi : i < theta.length) :
    (atomicTheta theta choices).getD (i * K) [] = theta.getD i [] := by
  unfold atomicTheta
  have h := flatten_getD_uniform _ K
    (atomicTheta_block_lengths K hK theta choices hrows) i 0
    (by rw [List.length_map, List.length_range]; exact hi) (by omega) []
  rw [Nat.add_zero] at h
  rw [h, atomicTheta_getD_block theta choices i hi]
  rfl

/-- Row `i*K + (t+1)` of `atomicTheta` is the contrast row
`theta[choices[i][t]]`. -/
theorem atomicTheta_getD_contrast (K : ℕ) (theta : List (List ℚ))
    (choices : List (List ℕ))
    (hrows : ∀ i < theta.length, (choices.getD i []).length = K - 1)
    (i t : ℕ) (hi : i < theta.length) (ht : t < K - 1) :
    (atomicTheta theta choices).getD (i * K + (t + 1)) [] =
      theta.getD ((choices.getD i []).getD t 0) [] := by
  unfold atomicTheta
  rw [flatten_getD_uniform _ K
    (atomicTheta_block_lengths K (by omega) theta choices hrows) i (t + 1)
    (by rw [List.length_map, List.length_range]; exact hi) (by omega) []]
  rw [atomicTheta_getD_block theta choices i hi]
  simp only [List.getD_cons_succ]
  exact getD_map _ (choices.getD i []) t (by rw [hrows i hi]; exact ht) 0 []

/-- `reshape2` row count. -/
theorem reshape2_length (B K : ℕ) (l : List ℚ) : (reshape2 B K l).length = B := by
  simp [reshape2]

/-- Row `i` of `reshape2`. -/
theorem reshape2_row (B K : ℕ) (l : List ℚ) (i : ℕ) (hi : i < B) :
    (reshape2 B K l).getD i [] =
      (List.range K).map (fun t => l.getD (i * K + t) 0) := by
  unfold reshape2
  rw [getD_map _ (List.range B) i (by simpa using hi) 0 [], range_getD B i hi 0]

/-- Claim C2: for batches of shape (B, ·) and `2 ≤ K ≤ B` with admissible
choice rows, `SNPE_C._log_prob_proposal_posterior` returns per example the
value `unnormalized[:, 0] - logsumexp(unnormalized, axis=-1)` where
`unnormalized` is the model log-density minus the prior log-density on the
`B*K` atomic pairs reshaped to (B, K), index 0 of each row being the real/self
pair; when `use_combined_loss` is enabled, the returned value is that atomic
quantity plus `mask * (non-atomic model log-density)` per row — an
augmentation, not a replacement. -/
theorem snpe_proposal_posterior_formula
    (modelLogProb : List ℚ → List ℚ → ℚ) (priorLogProb : List ℚ → ℚ)
    (logsumexp : List ℚ → ℚ) (useCombinedLoss : Bool) (B K : ℕ)
    (theta x : List (List ℚ)) (masks : List ℚ) (choices : List (List ℕ))
    (hK2 : 2 ≤ K) (hKB : K ≤ B) (htheta : theta.length = B) (hx : x.length = B)
    (hmasks : masks.length = B)
    (hrows : ∀ i < B, (choices.getD i []).length = K - 1) :
    (snpe_log_prob_proposal_posterior modelLogProb priorLogProb logsumexp
        useCombinedLoss K theta x masks choices).length = B ∧
      ∀ i < B,
        (snpe_log_prob_proposal_posterior modelLogProb priorLogProb logsumexp
            useCombinedLoss K theta x masks choices).getD i 0 =
          (if useCombinedLoss then
            masks.getD i 0 * modelLogProb (theta.getD i []) (x.getD i []) +
              ((atomRow modelLogProb priorLogProb theta x choices i).getD 0 0 -
                logsumexp (atomRow modelLogProb priorLogProb theta x choices i))
          else
            (atomRow modelLogProb priorLogProb theta x choices i).getD 0 0 -
              logsumexp (atomRow modelLogProb priorLogProb theta x choices i)) ∧
          (atomRow modelLogProb priorLogProb theta x choices i).getD 0 0 =
            modelLogProb (theta.getD i []) (x.getD i []) -
              priorLogProb (theta.getD i []) := by
  have hK1 : 1 ≤ K := by omega
  have hclamp : clamp_and_warn K 2 theta.length = K := by
    rw [htheta]
    exact clamp_and_warn_of_le K 2 B hK2 hKB
  have hrows' : ∀ i < theta.length, (choices.getD i []).length = K - 1 := by
    rw [htheta]
    exact hrows
  have hAlen : (atomicTheta theta choices).length = theta.length * K :=
    atomicTheta_length K hK1 theta choices hrows'
  have hRlen : (repeat_rows x K).length = theta.length * K := by
    rw [repeat_rows_length, hx, htheta]
  have hbound : ∀ i, i < B → ∀ t, t < K → i * K + t < theta.length * K := by
    intro i hi t ht
    calc i * K + t < i * K + K := by omega
      _ = (i + 1) * K := by ring
      _ ≤ theta.length * K := Nat.mul_le_mul_right K (by omega)
  have hflatpost : ∀ i, i < B → ∀ t, t < K →
      (List.zipWith modelLogProb (atomicTheta theta choices)
        (repeat_rows x K)).getD (i * K + t) 0 =
        modelLogProb ((atomicTheta theta choices).getD (i * K + t) [])
          (x.getD i []) := by
    intro i hi t ht
    rw [getD_zipWith modelLogProb _ _ (i * K + t)
      (by rw [hAlen]; exact hbound i hi t ht)
      (by rw [hRlen]; exact hbound i hi t ht) [] [] 0]
    congr 1
    exact repeat_rows_getD x K i t (by rw [hx, ← htheta]; omega) ht
  have hflatprior : ∀ i, i < B → ∀ t, t < K →
      ((atomicTheta theta choices).map priorLogProb).getD (i * K + t) 0 =
        priorLogProb ((atomicTheta theta choices).getD (i * K + t) []) := by
    intro i hi t ht
    exact getD_map _ _ (i * K + t) (by rw [hAlen]; exact hbound i hi t ht) [] 0
  have hrowmain : ∀ i, i < B →
      (List.zipWith (List.zipWith (fun a b => a - b))
          (reshape2 theta.length K
            (List.zipWith modelLogProb (atomicTheta theta choices) (repeat_rows x K)))
          (reshape2 theta.length K
            ((atomicTheta theta choices).map priorLogProb))).getD i []
        = atomRow modelLogProb priorLogProb theta x choices i := by
    intro i hi
    have hiT : i < theta.length := by rw [htheta]; exact hi
    rw [getD_zipWith _ _ _ i (by rw [reshape2_length]; exact hiT)
      (by rw [reshape2_length]; exact hiT) [] [] []]
    rw [reshape2_row theta.length K _ i hiT, reshape2_row theta.length K _ i hiT]
    rw [List.zipWith_map (fun a b => a - b) _ _ (List.range K) (List.range K),
      zipWith_self]
    have hKsplit : List.range K = 0 :: (List.range (K - 1)).map Nat.succ := by
      conv_lhs => rw [show K = (K - 1) + 1 by omega]
      exact List.range_succ_eq_map (K - 1)
    rw [hKsplit, List.map_cons, List.map_map]
    unfold atomRow
    congr 1
    · show (List.zipWith modelLogProb (atomicTheta theta choices)
          (repeat_rows x K)).getD (i * K + 0) 0 -
          ((atomicTheta theta choices).map priorLogProb).getD (i * K + 0) 0 = _
      rw [hflatpost i hi 0 (by omega), hflatprior i hi 0 (by omega)]
      rw [Nat.add_zero, atomicTheta_getD_self K hK1 theta choices hrows' i hiT]
    · rw [List.map_congr_left (fun t htm => ?_), ← hrows i hi,
        map_getD_range (choices.getD i []) _ 0]
      show (List.zipWith modelLogProb (atomicTheta theta choices)
          (repeat_rows x K)).getD (i * K + Nat.succ t) 0 -
          ((atomicTheta theta choices).map priorLogProb).getD (i * K + Nat.succ t) 0 = _
      have htK : t < K - 1 := List.mem_range.mp htm
      rw [hflatpost i hi (Nat.succ t) (by omega),
        hflatprior i hi (Nat.succ t) (by omega)]
      rw [show Nat.succ t = t + 1 from rfl,
        atomicTheta_getD_contrast K theta choices hrows' i t hiT htK]
  have hmainlen : (List.zipWith (List.zipWith (fun a b => a - b))
      (reshape2 theta.length K
        (List.zipWith modelLogProb (atomicTheta theta choices) (repeat_rows x K)))
      (reshape2 theta.length K
        ((atomicTheta theta choices).map priorLogProb))).length = B := by
    rw [List.length_zipWith, reshape2_length, reshape2_length, htheta]
    omega
  constructor
  · simp only [snpe_log_prob_proposal_posterior]
    rw [hclamp]
    cases useCombinedLoss with
    | false =>
      simp only [Bool.false_eq_true, if_false, List.length_map]
      exact hmainlen
    | true =>
      simp only [if_true, List.length_zipWith, List.length_map, hmainlen]
      rw [hmasks, htheta, hx]
      omega
  · intro i hi
    have hatom0 : (atomRow modelLogProb priorLogProb theta x choices i).getD 0 0 =
        modelLogProb (theta.getD i []) (x.getD i []) -
          priorLogProb (theta.getD i []) := rfl
    refine ⟨?_, hatom0⟩
    simp only [snpe_log_prob_proposal_posterior]
    rw [hclamp]
    cases useCombinedLoss with
    | false =>
      simp only [Bool.false_eq_true, if_false]
      rw [getD_map _ _ i (by rw [hmainlen]; exact hi) [] 0]
      rw [hrowmain i hi]
    | true =>
      simp only [if_true]
      have hnonatlen : (List.zipWith modelLogProb theta x).length = B := by
        rw [List.length_zipWith, htheta, hx]
        omega
      rw [getD_zipWith _ _ _ i
        (by rw [List.length_zipWith, hmasks, hnonatlen]; omega)
        (by rw [List.length_map, hmainlen]; exact hi) 0 0 0]
      rw [getD_zipWith _ _ _ i (by rw [hmasks]; exact hi)
        (by rw [hnonatlen]; exact hi) 0 0 0]
      rw [getD_zipWith modelLogProb _ _ i (by rw [htheta]; exact hi)
        (by rw [hx]; exact hi) [] [] 0]
      rw [getD_map _ _ i (by rw [hmainlen]; exact hi) [] 0]
      rw [hrowmain i hi]

/-- Witness for C2: the proposal-posterior loss at a concrete batch with
`B = K = 2`, combined loss enabled. -/
theorem snpe_proposal_posterior_formula_witness :
    (2 : ℕ) ≤ 2 ∧
      (snpe_log_prob_proposal_posterior (fun _ _ => 0) (fun _ => 0) (fun _ => 0)
        true 2 [[5], [7]] [[1], [2]] [1, 0] [[1], [0]]).length = 2 :=
  ⟨le_refl 2,
    (snpe_proposal_posterior_formula (fun _ _ => 0) (fun _ => 0) (fun _ => 0)
      true 2 2 [[5], [7]] [[1], [2]] [1, 0] [[1], [0]] (by decide) (by decide)
      (by decide) (by decide) (by decide) (by decide)).1⟩

/-- `assert_all_finite` passes finite tensors through. -/
theorem assert_all_finite_ok (t : List (Option ℚ)) (label : String)
    (h : t.all Option.isSome = true) :
    assert_all_finite t label = Except.ok t.reduceOption := by
  simp [assert_all_finite, h]

/-- `assert_all_finite` raises on a non-finite entry, carrying the label. -/
theorem assert_all_finite_error (t : List (Option ℚ)) (label : String)
    (h : t.all Option.isSome = false) :
    assert_all_finite t label = Except.error label := by
  simp [assert_all_finite, h]

/-- Claim C8: in the forward pass of `SNPE_C._log_prob_proposal_posterior`,
the model's atomic log-density, the prior's log-density on the atoms, and the
normalized proposal-posterior log-probability are each checked to be finite; a
non-finite value raises a fatal error surfaced to the caller (the checks are
sequential, the first failing tensor's label is reported), and when all three
tensors are finite the computation returns normally — the checks are the only
failure path. -/
theorem snpe_finiteness_checks
    (modelLogProb : List ℚ → List ℚ → Option ℚ) (priorLogProb : List ℚ → Option ℚ)
    (logsumexp : List ℚ → Option ℚ) (useCombinedLoss : Bool) (numAtoms : ℕ)
    (theta x : List (List ℚ)) (masks : List ℚ) (choices : List (List ℕ)) :
    ((List.zipWith modelLogProb (atomicTheta theta choices)
        (repeat_rows x (clamp_and_warn numAtoms 2 theta.length))).all
          Option.isSome = false →
      snpe_log_prob_proposal_posterior_checked modelLogProb priorLogProb
        logsumexp useCombinedLoss numAtoms theta x masks choices =
        Except.error "posterior eval") ∧
      ((List.zipWith modelLogProb (atomicTheta theta choices)
          (repeat_rows x (clamp_and_warn numAtoms 2 theta.length))).all
            Option.isSome = true →
        ((atomicTheta theta choices).map priorLogProb).all Option.isSome = false →
        snpe_log_prob_proposal_posterior_checked modelLogProb priorLogProb
          logsumexp useCombinedLoss numAtoms theta x masks choices =
          Except.error "prior eval") ∧
      ((List.zipWith modelLogProb (atomicTheta theta choices)
          (repeat_rows x (clamp_and_warn numAtoms 2 theta.length))).all
            Option.isSome = true →
        ((atomicTheta theta choices).map priorLogProb).all Option.isSome = true →
        (snpe_normalized_rows logsumexp theta.length
            (clamp_and_warn numAtoms 2 theta.length)
            (List.zipWith modelLogProb (atomicTheta theta choices)
              (repeat_rows x (clamp_and_warn numAtoms 2 theta.length))).reduceOption
            ((atomicTheta theta choices).map priorLogProb).reduceOption).all
          Option.isSome = false →
        snpe_log_prob_proposal_posterior_checked modelLogProb priorLogProb
          logsumexp useCombinedLoss numAtoms theta x masks choices =
          Except.error "proposal posterior eval") ∧
      ((List.zipWith modelLogProb (atomicTheta theta choices)
          (repeat_rows x (clamp_and_warn numAtoms 2 theta.length))).all
            Option.isSome = true →
        ((atomicTheta theta choices).map priorLogProb).all Option.isSome = true →
        (snpe_normalized_rows logsumexp theta.length
            (clamp_and_warn numAtoms 2 theta.length)
            (List.zipWith modelLogProb (atomicTheta theta choices)
              (repeat_rows x (clamp_and_warn numAtoms 2 theta.length))).reduceOption
            ((atomicTheta theta choices).map priorLogProb).reduceOption).all
          Option.isSome = true →
        ∃ out, snpe_log_prob_proposal_posterior_checked modelLogProb priorLogProb
          logsumexp useCombinedLoss numAtoms theta x masks choices =
          Except.ok out) := by
  refine ⟨fun h1 => ?_, fun h1 h2 => ?_, fun h1 h2 h3 => ?_, fun h1 h2 h3 => ?_⟩
  · simp only [snpe_log_prob_proposal_posterior_checked,
      assert_all_finite_error _ _ h1]
  · simp only [snpe_log_prob_proposal_posterior_checked,
      assert_all_finite_ok _ _ h1, assert_all_finite_error _ _ h2]
  · simp only [snpe_log_prob_proposal_posterior_checked,
      assert_all_finite_ok _ _ h1, assert_all_finite_ok _ _ h2,
      assert_all_finite_error _ _ h3]
  · simp only [snpe_log_prob_proposal_posterior_checked,
      assert_all_finite_ok _ _ h1, assert_all_finite_ok _ _ h2,
      assert_all_finite_ok _ _ h3]
    cases useCombinedLoss with
    | false => exact ⟨_, rfl⟩
    | true => exact ⟨_, rfl⟩

/-- Witness for C8: a model whose atomic log-density is non-finite (`none`) on
a concrete batch makes the loss computation abort with the "posterior eval"
error. -/
theorem snpe_finiteness_checks_witness :
    (List.zipWith (fun _ _ => (none : Option ℚ)) (atomicTheta [[0], [1]] [[1], [0]])
        (repeat_rows [[0], [0]] (clamp_and_warn 2 2 2))).all Option.isSome = false ∧
      snpe_log_prob_proposal_posterior_checked (fun _ _ => none) (fun _ => some 0)
        (fun _ => some 0) false 2 [[0], [1]] [[0], [0]] [0, 0] [[1], [0]] =
        Except.error "posterior eval" :=
  ⟨by decide,
    (snpe_finiteness_checks (fun _ _ => none) (fun _ => some 0) (fun _ => some 0)
      false 2 [[0], [1]] [[0], [0]] [0, 0] [[1], [0]]).1 (by decide)⟩

end SBI

